import Mathlib

/-!
Verification of the cc-antidebug text-patching engine.

The definitions below are a shallow embedding of `src/index.ts`:

* `scanAndReplace` (with its helpers `scanBackwardAux`, `scanForwardAux`,
  `backwardScanStart`, `forwardScanEnd`, `scanRange`) embeds the
  range-scanner function `scanAndReplace`.
* `tryP1`, `tryP2`, `tryP3` embed the three guard regular expressions as
  deterministic matchers (each regex is a concatenation of literals and
  greedy character-class runs where the character class never contains the
  next literal's first character, so the greedy match never needs to
  backtrack and the matchers are extensionally the regex engine's
  behaviour), `replaceAll` embeds the global `String.replace`.
* `patchPipeline` embeds the pure content transformation performed by
  `patchClaudeBinary` (guard regexes, then the subscription-check
  `scanAndReplace` rule, then the directory-restriction rule) together with
  the `patched` flag.
* `FsState`, `patchClaudeBinary`, `restoreClaudeBinary`, `runFsOps` embed
  the filesystem lifecycle restricted to the two paths the code touches:
  the target file and its `<target>.backup` sibling.

Contents are modelled as `List Char`; JavaScript strings are sequences of
UTF-16 units, which for the patterns involved (all ASCII) coincide.
-/

namespace CcAntidebug

/-- Literal open-brace character, written with an escape. -/
def openBrace : Char := '\x7b'

/-- Literal close-brace character, written with an escape. -/
def closeBrace : Char := '\x7d'

/-- Embeds JavaScript `content.indexOf(pat)`: the first index at which `pat`
occurs as a contiguous substring, or `none` (JS `-1`) if it never occurs.
Like `indexOf`, the empty pattern occurs at index 0. -/
def indexOfList (l pat : List Char) : Option Nat :=
  if pat.isPrefixOf l then some 0
  else
    match l with
    | [] => none
    | _ :: t =>
      match indexOfList t pat with
      | some i => some (i + 1)
      | none => none

/-- Tests a literal at the front of `l`; on success returns the rest. -/
def dropLit (pat l : List Char) : Option (List Char) :=
  if pat.isPrefixOf l then some (l.drop pat.length) else none

/-- Embeds JS `content.slice(i, j)`. -/
def sliceAt (content : List Char) (i j : Nat) : List Char :=
  (content.drop i).take (j - i)

/-- Backward-scan loop of `scanAndReplace`: for `i` from `searchIndex - 1`
down to `0`, take `slice = content.slice(i, searchIndex)`; if the slice
contains `back`, the start index is `i + slice.indexOf(back)`; otherwise
the start index stays at its initial value `searchIndex`. -/
def scanBackwardAux (content back : List Char) (searchIndex : Nat) : Nat → Nat
  | 0 =>
    (match indexOfList (sliceAt content 0 searchIndex) back with
     | some k => k
     | none => searchIndex)
  | i + 1 =>
    (match indexOfList (sliceAt content (i + 1) searchIndex) back with
     | some k => i + 1 + k
     | none => scanBackwardAux content back searchIndex i)

/-- Start boundary computed by `scanAndReplace`'s backward scan; when
`searchIndex = 0` the loop body never runs and the start index stays at
`searchIndex`. -/
def backwardScanStart (content back : List Char) (searchIndex : Nat) : Nat :=
  match searchIndex with
  | 0 => 0
  | s + 1 => scanBackwardAux content back (s + 1) s

/-- Forward-scan loop of `scanAndReplace`, walking the remainder of the
content (the suffix starting at absolute index `i`).  In brace mode a
counter is incremented on each open brace, decremented on each close brace
once a first open brace has been seen, and the scan stops just after the
close brace that returns the counter to zero.  Otherwise the scan stops
just after the first occurrence of `forward`; `defaultEnd` is returned when
the loop runs off the end of the content. -/
def scanForwardAux (forward : List Char) (defaultEnd : Nat) (matchBraces : Bool) :
    List Char → Nat → Int → Bool → Nat
  | [], _, _, _ => defaultEnd
  | c :: rest, i, braceCount, foundFirstBrace =>
    if matchBraces then
      let braceCount1 : Int := if c = openBrace then braceCount + 1 else braceCount
      let found1 : Bool := foundFirstBrace || (c == openBrace)
      if (c == closeBrace) && found1 then
        if braceCount1 - 1 = 0 then i + 1
        else scanForwardAux forward defaultEnd matchBraces rest (i + 1) (braceCount1 - 1) found1
      else scanForwardAux forward defaultEnd matchBraces rest (i + 1) braceCount1 found1
    else
      if (match forward with | f :: _ => c == f | [] => false)
          && forward.isPrefixOf (c :: rest) then
        i + forward.length
      else scanForwardAux forward defaultEnd matchBraces rest (i + 1) braceCount foundFirstBrace

/-- End boundary computed by `scanAndReplace`'s forward scan.  The source
initialises `endIndex = searchIndex + searchPattern.length` and starts the
loop at `startIndex` (the result of the backward scan), with `braceCount = 0`
and `foundFirstBrace = false`. -/
def forwardScanEnd (content forward : List Char) (defaultEnd : Nat) (matchBraces : Bool)
    (startIndex : Nat) : Nat :=
  scanForwardAux forward defaultEnd matchBraces (content.drop startIndex) startIndex 0 false

/-- Range `[start, end)` computed by `scanAndReplace`, or `none` when the
anchor does not occur. -/
def scanRange (content searchPattern backwardPattern forwardPattern : List Char)
    (matchBraces : Bool) : Option (Nat × Nat) :=
  match indexOfList content searchPattern with
  | none => none
  | some searchIndex =>
    let startIndex := backwardScanStart content backwardPattern searchIndex
    let endIndex := forwardScanEnd content forwardPattern
      (searchIndex + searchPattern.length) matchBraces startIndex
    some (startIndex, endIndex)

/-- Embeds `scanAndReplace` from `src/index.ts`: `null` (here `none`) when
the anchor is absent, otherwise
`content.slice(0, startIndex) + replacement + content.slice(endIndex)`. -/
def scanAndReplace (content searchPattern backwardPattern forwardPattern replacement : List Char)
    (matchBraces : Bool) : Option (List Char) :=
  match scanRange content searchPattern backwardPattern forwardPattern matchBraces with
  | none => none
  | some (startIndex, endIndex) =>
    some (content.take startIndex ++ replacement ++ content.drop endIndex)

/-- Character class `[A-Za-z0-9_$]` of the guard regexes. -/
def isIdentChar (c : Char) : Bool :=
  c.isAlpha || c.isDigit || c == '_' || c == '$'

/-- JavaScript `\s` restricted to its ASCII members; the guard patterns only
ever meet ASCII whitespace. -/
def isJsSpace (c : Char) : Bool :=
  c == ' ' || c == '\t' || c == '\n' || c == '\r' || c == '\x0b' || c == '\x0c'

/-- Literal `"if("`. -/
def litIfOpen : List Char := "if(".toList

/-- Literal `"if"`. -/
def litIf : List Char := "if".toList

/-- Literal `"("`. -/
def litOpen : List Char := "(".toList

/-- Literal `"())"`. -/
def litParens3 : List Char := "())".toList

/-- Literal `"())process.exit(1);"`. -/
def litGuardTail1 : List Char := "())process.exit(1);".toList

/-- Literal `"())process.exit("`. -/
def litGuardTailOpen : List Char := "())process.exit(".toList

/-- Literal `"process.exit(1);"`. -/
def litProcessExit1 : List Char := "process.exit(1);".toList

/-- Literal `");"`. -/
def litCloseSemi : List Char := ");".toList

/-- Literal `"))process.exit("`, the tail of `litGuardTailOpen`. -/
def litGuardTailOpenRest : List Char := "))process.exit(".toList

/-- Literal `")process.exit("`. -/
def litParenProcExit : List Char := ")process.exit(".toList

/-- Literal `"process.exit("`. -/
def litProcExitOpen : List Char := "process.exit(".toList

/-- Literal `"rocess.exit("`. -/
def litProcExitOpenRest : List Char := "rocess.exit(".toList

/-- Literal `"1);"`. -/
def litOneParenSemi : List Char := "1);".toList

/-- Replacement literal `"if(false)process.exit(1);"` used for every guard
regex match. -/
def exitReplacement : List Char := "if(false)process.exit(1);".toList

/-- Anchor literal of the subscription-check rule. -/
def subscriptionAnchor : List Char := "no need to monitor cost".toList

/-- Backward delimiter of the subscription-check rule. -/
def litReturn : List Char := "return".toList

/-- Forward delimiter and replacement of the subscription-check rule. -/
def litSemi : List Char := ";".toList

/-- The fully-escaped (hence literal) directory-restriction regex from
`patchClaudeBinary`. -/
def dirPatternLit : List Char :=
  "return D.valid?\x7bbehavior:\"passthrough\",message:`Path validation passed for $\x7bA\x7d command`\x7d:\x7bbehavior:\"ask\",message:D.message\x7d".toList

/-- Replacement of the directory-restriction rule. -/
def dirReplacement : List Char :=
  "return\x7bbehavior:\"passthrough\",message:\"Path validation bypassed\"\x7d".toList

/-- Matcher for `/if\([A-Za-z0-9_$]+\(\)\)process\.exit\(1\);/`: returns the
length of the match starting at the head of `l`, if any.  The identifier
run is taken greedily; since `(` is not an identifier character the regex
engine never backtracks into the run, so this is the regex's behaviour. -/
def tryP1 (l : List Char) : Option Nat :=
  match dropLit litIfOpen l with
  | none => none
  | some r1 =>
    let idRun := r1.takeWhile isIdentChar
    if idRun.length = 0 then none
    else
      match dropLit litGuardTail1 (r1.dropWhile isIdentChar) with
      | none => none
      | some _ => some (litIfOpen.length + idRun.length + litGuardTail1.length)

/-- Matcher for `/if\s*\([A-Za-z0-9_$]+\(\)\)\s*process\.exit\(1\);/` (same
no-backtracking argument: whitespace never starts the following literal). -/
def tryP2 (l : List Char) : Option Nat :=
  match dropLit litIf l with
  | none => none
  | some r1 =>
    let ws1 := r1.takeWhile isJsSpace
    match dropLit litOpen (r1.dropWhile isJsSpace) with
    | none => none
    | some r2 =>
      let idRun := r2.takeWhile isIdentChar
      if idRun.length = 0 then none
      else
        match dropLit litParens3 (r2.dropWhile isIdentChar) with
        | none => none
        | some r3 =>
          let ws2 := r3.takeWhile isJsSpace
          match dropLit litProcessExit1 (r3.dropWhile isJsSpace) with
          | none => none
          | some _ =>
            some (litIf.length + ws1.length + litOpen.length + idRun.length +
              litParens3.length + ws2.length + litProcessExit1.length)

/-- Matcher for `/if\([A-Za-z0-9_$]+\(\)\)process\.exit\(\d+\);/` (digits
never contain `)`, so again no backtracking). -/
def tryP3 (l : List Char) : Option Nat :=
  match dropLit litIfOpen l with
  | none => none
  | some r1 =>
    let idRun := r1.takeWhile isIdentChar
    if idRun.length = 0 then none
    else
      match dropLit litGuardTailOpen (r1.dropWhile isIdentChar) with
      | none => none
      | some r2 =>
        let digRun := r2.takeWhile Char.isDigit
        if digRun.length = 0 then none
        else
          match dropLit litCloseSemi (r2.dropWhile Char.isDigit) with
          | none => none
          | some _ =>
            some (litIfOpen.length + idRun.length + litGuardTailOpen.length +
              digRun.length + litCloseSemi.length)

/-- One left-to-right pass of a global regex replace: at each position, if
the matcher fires, emit the replacement and resume after the match,
otherwise keep the character.  `fuel` bounds the recursion; each step
consumes at least one character, so `fuel = l.length` suffices. -/
def replaceAllAux (tm : List Char → Option Nat) (repl : List Char) :
    Nat → List Char → List Char
  | _, [] => []
  | 0, l => l
  | fuel + 1, c :: rest =>
    match tm (c :: rest) with
    | some (n + 1) => repl ++ replaceAllAux tm repl fuel (rest.drop n)
    | _ => c :: replaceAllAux tm repl fuel rest

/-- Embeds JS `content.replace(pattern, repl)` with a global regex. -/
def replaceAll (tm : List Char → Option Nat) (repl l : List Char) : List Char :=
  replaceAllAux tm repl l.length l

/-- Body of the `for (const pattern of patterns)` loop in
`patchClaudeBinary`: replace globally; if anything changed, record the new
content and set the `patched` flag. -/
def guardStep (tm : List Char → Option Nat) (acc : List Char × Bool) : List Char × Bool :=
  let newContent := replaceAll tm exitReplacement acc.1
  if newContent = acc.1 then acc else (newContent, true)

/-- First stage of `patchClaudeBinary`: the three guard regexes in order. -/
def applyGuardPatterns (content : List Char) : List Char × Bool :=
  guardStep tryP3 (guardStep tryP2 (guardStep tryP1 (content, false)))

/-- Embeds a non-global `String.replace` with a literal pattern: the first
occurrence is replaced. -/
def replaceFirstOcc (content pat repl : List Char) : List Char :=
  match indexOfList content pat with
  | none => content
  | some i => content.take i ++ repl ++ content.drop (i + pat.length)

/-- The pure content transformation of `patchClaudeBinary` together with
the `patched` flag: guard regexes, then the subscription-check
`scanAndReplace` rule (applied when its result is truthy, i.e. non-null and
non-empty), then the directory-restriction rule (applied when the literal
pattern occurs). -/
def patchPipeline (content : List Char) : List Char × Bool :=
  let g := applyGuardPatterns content
  let s :=
    match scanAndReplace g.1 subscriptionAnchor litReturn litSemi litSemi false with
    | some r => if r.length = 0 then g else (r, true)
    | none => g
  if (indexOfList s.1 dirPatternLit).isSome then
    (replaceFirstOcc s.1 dirPatternLit dirReplacement, true)
  else s

/-- Filesystem state restricted to the two paths the lifecycle touches: the
target file's bytes and the optional `<target>.backup` file's bytes. -/
structure FsState where
  target : List Char
  backup : Option (List Char)
deriving DecidableEq

/-- Embeds `patchClaudeBinary` acting on the filesystem: create the backup
if absent, run the pipeline, and write the target only when the `patched`
flag is set. -/
def patchClaudeBinary (s : FsState) : FsState :=
  let backup :=
    match s.backup with
    | none => some s.target
    | some b => some b
  let p := patchPipeline s.target
  if p.2 then { target := p.1, backup := backup }
  else { target := s.target, backup := backup }

/-- Embeds `restoreClaudeBinary`: a silent no-op when no backup exists,
otherwise copy the backup's bytes over the target, keeping the backup. -/
def restoreClaudeBinary (s : FsState) : FsState :=
  match s.backup with
  | none => s
  | some b => { target := b, backup := some b }

/-- Calling `patchClaudeBinary` `n` times in sequence. -/
def iteratePatch : Nat → FsState → FsState
  | 0, s => s
  | n + 1, s => iteratePatch n (patchClaudeBinary s)

/-- A lifecycle operation: one `patch` call or one `restore` call. -/
inductive FsOp where
  | patchOp : FsOp
  | restoreOp : FsOp
deriving DecidableEq

/-- Runs one lifecycle operation. -/
def applyFsOp (s : FsState) (op : FsOp) : FsState :=
  match op with
  | FsOp.patchOp => patchClaudeBinary s
  | FsOp.restoreOp => restoreClaudeBinary s

/-- Runs a sequence of lifecycle operations left to right. -/
def runFsOps : List FsOp → FsState → FsState
  | [], s => s
  | op :: rest, s => runFsOps rest (applyFsOp s op)

/-- Occurrence of `back` as a substring lying wholly before position
`searchIndex` (it starts at `p` and ends at or before `searchIndex`). -/
def occursBefore (content back : List Char) (searchIndex p : Nat) : Prop :=
  back.isPrefixOf (content.drop p) = true ∧ p + back.length ≤ searchIndex

/-- Modelled from the spec's claim about the non-brace forward scan: the
claimed end boundary is just past the first occurrence of the forward
delimiter at or after the anchor position, defaulting to just past the
anchor itself when there is no such occurrence. -/
def claimForwardEnd (content forward : List Char) (searchIndex anchorLen : Nat) : Nat :=
  match indexOfList (content.drop searchIndex) forward with
  | some j => searchIndex + j + forward.length
  | none => searchIndex + anchorLen

/-- Sufficient syntactic test that `m` followed by anything can never start
with the literal `"if("`. -/
def blocksIfOpen (m : List Char) : Bool :=
  match m with
  | [] => false
  | [a] => !(a == 'i')
  | [a, b] => !(a == 'i' && b == 'f')
  | a :: b :: c :: _ => !(a == 'i' && b == 'f' && c == '(')

/-- Sufficient syntactic test that `m` followed by anything can never start
with the literal `"if"`. -/
def blocksIf (m : List Char) : Bool :=
  match m with
  | [] => false
  | [a] => !(a == 'i')
  | a :: b :: _ => !(a == 'i' && b == 'f')

/-- Decides that no rule of the pipeline fires on `l`: no guard regex
matches at any position, the subscription anchor is absent and the
directory-restriction literal is absent. -/
def noRuleMatches (l : List Char) : Bool :=
  (l.tails.all fun t => (tryP1 t).isNone && (tryP2 t).isNone && (tryP3 t).isNone)
    && (indexOfList l subscriptionAnchor).isNone
    && (indexOfList l dirPatternLit).isNone

/-- A guard occurrence `if(X())process.exit(N);` assembled from an
identifier run `X` and a digit run `N`. -/
def guardContent (X N : List Char) : List Char :=
  litIfOpen ++ X ++ litGuardTailOpen ++ N ++ litCloseSemi

/-- Example content whose forward delimiter occurs before the anchor. -/
def exContentC3 : List Char := "R;aANC".toList

def exAnchorC3 : List Char := "ANC".toList

def exBackC3 : List Char := "R".toList

def exTilde : List Char := "~".toList

def exPct : List Char := "%".toList

/-- The nested-brace example from the spec. -/
def braceExample : List Char := "foo(\x7ba:\x7bb:1\x7d,c:2\x7d)bar".toList

def braceAnchor : List Char := "\x7ba:".toList

/-- A guard followed by a `return`, an early semicolon and the subscription
anchor; the pipeline is not idempotent on it. -/
def cex1 : List Char := "if(A())process.exit(1);return;no need to monitor cost;".toList

/-- Content that is exactly one guard occurrence. -/
def guardOnly : List Char := "if(A())process.exit(1);".toList

/-- Content no rule matches. -/
def exPlain : List Char := "hello".toList

def exIdent : List Char := "Z1".toList

def exDigits : List Char := "7".toList

def listOne : List Char := "1".toList

/-- Example content for the backward-scan characterisation. -/
def exC5 : List Char := "QANC".toList

def exBackC5 : List Char := "Q".toList

/-- Literal `"return "`, an example prefix embedding a guard occurrence. -/
def litReturnSp : List Char := "return ".toList

def exA : List Char := "A".toList

def exTwo : List Char := "2".toList

/-- Literal `"process.exit(1)"`. -/
def litProcessExitOne : List Char := "process.exit(1)".toList

/-- Content embedding a guard with exit code 2 between a `return` and the
subscription anchor; the pipeline deletes the replaced guard entirely. -/
def cexC10 : List Char := "return if(A())process.exit(2);no need to monitor cost".toList

/-! ### Lifecycle lemmas -/

theorem restoreClaudeBinary_backup (s : FsState) :
    (restoreClaudeBinary s).backup = s.backup := by
  cases s with
  | mk t b => cases b <;> rfl

theorem patchClaudeBinary_backup_some (s : FsState) (B : List Char)
    (h : s.backup = some B) : (patchClaudeBinary s).backup = some B := by
  unfold patchClaudeBinary
  rw [h]
  by_cases hp : (patchPipeline s.target).2 <;> simp [hp]

theorem patchClaudeBinary_backup_none (s : FsState)
    (h : s.backup = none) : (patchClaudeBinary s).backup = some s.target := by
  unfold patchClaudeBinary
  rw [h]
  by_cases hp : (patchPipeline s.target).2 <;> simp [hp]

theorem iteratePatch_backup (n : Nat) (s : FsState) (B : List Char)
    (h : s.backup = some B) : (iteratePatch n s).backup = some B := by
  induction n generalizing s with
  | zero => exact h
  | succ n ih => exact ih (patchClaudeBinary s) (patchClaudeBinary_backup_some s B h)

/-- C2: starting from an original content `C` with no backup present, the
first `patch` captures `C` as the backup, and `restore` after any number of
`patch` calls writes exactly those bytes back, so the target ends equal to
`C`. -/
theorem restore_after_patches_roundtrip (C : List Char) (n : Nat) :
    (restoreClaudeBinary (iteratePatch n ⟨C, none⟩)).target = C := by
  cases n with
  | zero => rfl
  | succ n =>
    have hb : (iteratePatch (n + 1) (⟨C, none⟩ : FsState)).backup = some C := by
      show (iteratePatch n (patchClaudeBinary ⟨C, none⟩)).backup = some C
      exact iteratePatch_backup n _ C (patchClaudeBinary_backup_none ⟨C, none⟩ rfl)
    unfold restoreClaudeBinary
    rw [hb]

theorem runFsOps_backup_some (ops : List FsOp) (s : FsState) (B : List Char)
    (h : s.backup = some B) : (runFsOps ops s).backup = some B := by
  induction ops generalizing s with
  | nil => exact h
  | cons op rest ih =>
    cases op with
    | patchOp =>
      exact ih (patchClaudeBinary s) (patchClaudeBinary_backup_some s B h)
    | restoreOp =>
      exact ih (restoreClaudeBinary s) (by rw [restoreClaudeBinary_backup]; exact h)

/-- C8: over any sequence of patch/restore calls starting from a state with
no backup, the backup is exactly the target's bytes at the time of the
first patch (the original content `C`), and `restore` never modifies the
backup. -/
theorem backup_write_once (ops : List FsOp) (C : List Char)
    (h : FsOp.patchOp ∈ ops) :
    (runFsOps ops ⟨C, none⟩).backup = some C
    ∧ ∀ s : FsState, (restoreClaudeBinary s).backup = s.backup := by
  refine ⟨?_, restoreClaudeBinary_backup⟩
  induction ops with
  | nil => cases h
  | cons op rest ih =>
    cases op with
    | patchOp =>
      simp only [runFsOps, applyFsOp]
      exact runFsOps_backup_some rest _ C (patchClaudeBinary_backup_none ⟨C, none⟩ rfl)
    | restoreOp =>
      simp only [runFsOps, applyFsOp]
      have hr : restoreClaudeBinary ⟨C, none⟩ = (⟨C, none⟩ : FsState) := rfl
      rw [hr]
      rcases List.mem_cons.mp h with h1 | h1
      · exact absurd h1 (by decide)
      · exact ih h1

theorem backup_write_once_witness :
    (runFsOps [FsOp.patchOp] ⟨exPlain, none⟩).backup = some exPlain
    ∧ ∀ s : FsState, (restoreClaudeBinary s).backup = s.backup :=
  backup_write_once [FsOp.patchOp] exPlain (by decide)

/-- C9: restore with no pre-existing backup is a silent no-op: the state is
returned unchanged, and in particular nothing is written to the target. -/
theorem restore_without_backup_noop (C : List Char) :
    restoreClaudeBinary ⟨C, none⟩ = ⟨C, none⟩ := rfl

/-- C7: when the anchor does not occur, `scanAndReplace` returns `none` and
produces no modified content; and when no rule of the pipeline changes the
content (the `patched` flag is `false`), `patch` leaves the target's bytes
untouched (no write-back occurs). -/
theorem missing_anchor_no_write :
    (∀ (content searchPattern backwardPattern forwardPattern replacement : List Char)
        (mb : Bool), indexOfList content searchPattern = none →
        scanAndReplace content searchPattern backwardPattern forwardPattern replacement mb
          = none)
    ∧ ∀ s : FsState, (patchPipeline s.target).2 = false →
        (patchClaudeBinary s).target = s.target := by
  constructor
  · intro content sp bp fp repl mb h
    simp [scanAndReplace, scanRange, h]
  · intro s h
    simp [patchClaudeBinary, h]

theorem missing_anchor_no_write_witness :
    scanAndReplace exPlain subscriptionAnchor litReturn litSemi litSemi false = none
    ∧ (patchClaudeBinary ⟨exPlain, none⟩).target = exPlain :=
  ⟨missing_anchor_no_write.1 exPlain subscriptionAnchor litReturn litSemi litSemi false
      (by decide),
    missing_anchor_no_write.2 ⟨exPlain, none⟩ (by decide)⟩

/-! ### Global replacement lemmas -/

theorem replaceAllAux_eq_self (tm : List Char → Option Nat) (repl : List Char) :
    ∀ (fuel : Nat) (l : List Char), (∀ t, t <:+ l → tm t = none) →
      replaceAllAux tm repl fuel l = l := by
  intro fuel
  induction fuel with
  | zero =>
    intro l hl
    cases l with
    | nil => rfl
    | cons c rest => rfl
  | succ fuel ih =>
    intro l hl
    cases l with
    | nil => rfl
    | cons c rest =>
      have h0 : tm (c :: rest) = none := hl (c :: rest) (List.suffix_refl _)
      simp only [replaceAllAux, h0]
      rw [ih rest (fun t ht => hl t (ht.trans (List.suffix_cons c rest)))]

theorem replaceAll_eq_self (tm : List Char → Option Nat) (repl l : List Char)
    (h : ∀ t, t <:+ l → tm t = none) : replaceAll tm repl l = l :=
  replaceAllAux_eq_self tm repl l.length l h

theorem replaceAllAux_full (tm : List Char → Option Nat) (repl : List Char)
    (fuel : Nat) (c : Char) (rest : List Char)
    (h : tm (c :: rest) = some (rest.length + 1)) :
    replaceAllAux tm repl (fuel + 1) (c :: rest) = repl := by
  simp only [replaceAllAux, h]
  rw [List.drop_length]
  cases fuel <;> simp [replaceAllAux]

theorem patchPipeline_no_rule (X : List Char) (h : noRuleMatches X = true) :
    patchPipeline X = (X, false) := by
  unfold noRuleMatches at h
  rw [Bool.and_eq_true, Bool.and_eq_true] at h
  obtain ⟨⟨hall, hanch⟩, hdir⟩ := h
  have htails := List.all_eq_true.mp hall
  have htm : ∀ t, t <:+ X → tryP1 t = none ∧ tryP2 t = none ∧ tryP3 t = none := by
    intro t ht
    have hmem := htails t ((List.mem_tails t X).mpr ht)
    rw [Bool.and_eq_true, Bool.and_eq_true] at hmem
    exact ⟨Option.isNone_iff_eq_none.mp hmem.1.1,
      Option.isNone_iff_eq_none.mp hmem.1.2,
      Option.isNone_iff_eq_none.mp hmem.2⟩
  have h1 : replaceAll tryP1 exitReplacement X = X :=
    replaceAll_eq_self _ _ _ (fun t ht => (htm t ht).1)
  have h2 : replaceAll tryP2 exitReplacement X = X :=
    replaceAll_eq_self _ _ _ (fun t ht => (htm t ht).2.1)
  have h3 : replaceAll tryP3 exitReplacement X = X :=
    replaceAll_eq_self _ _ _ (fun t ht => (htm t ht).2.2)
  have hg : applyGuardPatterns X = (X, false) := by
    unfold applyGuardPatterns guardStep
    simp [h1, h2, h3]
  have hanch' : indexOfList X subscriptionAnchor = none :=
    Option.isNone_iff_eq_none.mp hanch
  have hdir' : indexOfList X dirPatternLit = none :=
    Option.isNone_iff_eq_none.mp hdir
  simp [patchPipeline, hg, scanAndReplace, scanRange, hanch', hdir']

/-- C1 amended: the pipeline is idempotent exactly in the situation the
spec's parenthetical describes, namely when no rule still matches the
first call's output: then the second call returns the same bytes with the
`patched` flag false.  (Unconditional idempotence fails: see the
counterexample, where the subscription-check rule rewrites again.) -/
theorem patch_idempotent_of_no_rule_matches (C : List Char)
    (h : noRuleMatches (patchPipeline C).1 = true) :
    patchPipeline (patchPipeline C).1 = ((patchPipeline C).1, false)
    ∧ (patchPipeline (patchPipeline C).1).1 = (patchPipeline C).1 := by
  have hp := patchPipeline_no_rule _ h
  exact ⟨hp, by rw [hp]⟩

theorem patch_idempotent_witness :
    noRuleMatches (patchPipeline guardOnly).1 = true
    ∧ (patchPipeline (patchPipeline guardOnly).1 = ((patchPipeline guardOnly).1, false)
        ∧ (patchPipeline (patchPipeline guardOnly).1).1 = (patchPipeline guardOnly).1) :=
  ⟨by decide, patch_idempotent_of_no_rule_matches guardOnly (by decide)⟩

/-- C1 counterexample: `cex1` contains the recognised guard idiom (the
guard regex matches at its head with length 23), the pipeline fires on it,
yet applying the pipeline to its own output changes the bytes again, so
patching twice differs from patching once. -/
theorem patch_not_idempotent :
    tryP1 cex1 = some 23
    ∧ (patchPipeline cex1).2 = true
    ∧ (patchPipeline (patchPipeline cex1).1).1 ≠ (patchPipeline cex1).1 := by decide

/-! ### Forward-scan characterisations -/

theorem scanForwardAux_brace_forward_irrelevant (f g : List Char) (d : Nat) :
    ∀ (l : List Char) (i : Nat) (bc : Int) (fb : Bool),
      scanForwardAux f d true l i bc fb = scanForwardAux g d true l i bc fb := by
  intro l
  induction l with
  | nil => intro i bc fb; rfl
  | cons c rest ih =>
    intro i bc fb
    simp only [scanForwardAux, if_true]
    split_ifs <;> first | rfl | exact ih (i + 1) _ _

/-- C6: in brace mode the forward delimiter is ignored (the scan result
does not depend on it), and on the spec's nested example
`foo({a:{b:1},c:2})bar` with anchor `{a:` the computed end boundary is 17,
immediately after the close brace at index 16 that matches the anchor's
opening brace at index 4, despite the inner nested pair. -/
theorem brace_mode_end_boundary :
    (∀ (f g : List Char) (d : Nat) (l : List Char) (i : Nat) (bc : Int) (fb : Bool),
        scanForwardAux f d true l i bc fb = scanForwardAux g d true l i bc fb)
    ∧ indexOfList braceExample braceAnchor = some 4
    ∧ scanRange braceExample braceAnchor exTilde exPct true = some (4, 17) :=
  ⟨fun f g d => scanForwardAux_brace_forward_irrelevant f g d, by decide, by decide⟩

theorem indexOfList_nil_of_ne (pat : List Char) (hf : pat ≠ []) :
    indexOfList [] pat = none := by
  unfold indexOfList
  have hp : pat.isPrefixOf [] = false := by
    cases pat with
    | nil => exact absurd rfl hf
    | cons a as => rfl
  simp [hp]

theorem scanForwardAux_nonbrace (forward : List Char) (hf : forward ≠ []) (d : Nat) :
    ∀ (l : List Char) (i : Nat) (bc : Int) (fb : Bool),
      scanForwardAux forward d false l i bc fb =
        match indexOfList l forward with
        | some j => i + j + forward.length
        | none => d := by
  intro l
  induction l with
  | nil =>
    intro i bc fb
    rw [indexOfList_nil_of_ne forward hf]
    rfl
  | cons c rest ih =>
    intro i bc fb
    cases hp : forward.isPrefixOf (c :: rest) with
    | true =>
      obtain ⟨f, fs, rfl⟩ : ∃ f fs, forward = f :: fs := by
        cases forward with
        | nil => exact absurd rfl hf
        | cons f fs => exact ⟨f, fs, rfl⟩
      have hcf : (c == f) = true := by
        have hpre := List.isPrefixOf_iff_prefix.mp hp
        have hfc : f = c := (List.cons_prefix_cons.mp hpre).1
        simp [hfc]
      simp only [scanForwardAux, indexOfList, hp, hcf, Bool.and_self, Bool.false_eq_true,
        if_false, if_true]
      show i + (f :: fs).length = i + 0 + (f :: fs).length
      omega
    | false =>
      simp only [scanForwardAux, indexOfList, hp, Bool.and_false, Bool.false_eq_true,
        if_false]
      rw [ih (i + 1) bc fb]
      cases hi : indexOfList rest forward with
      | none => rfl
      | some j =>
        show i + 1 + j + forward.length = i + (j + 1) + forward.length
        omega

/-! ### Backward-scan characterisation -/

theorem indexOfList_some_prefix (pat : List Char) :
    ∀ (l : List Char) (k : Nat), indexOfList l pat = some k →
      pat.isPrefixOf (l.drop k) = true := by
  intro l
  induction l with
  | nil =>
    intro k h
    unfold indexOfList at h
    cases hp : pat.isPrefixOf ([] : List Char) with
    | false => rw [hp] at h; simp at h
    | true =>
      rw [hp] at h
      simp only [if_true] at h
      have hk : k = 0 := by
        have := Option.some.inj h
        omega
      subst hk
      simpa using hp
  | cons c t ih =>
    intro k h
    unfold indexOfList at h
    cases hp : pat.isPrefixOf (c :: t) with
    | true =>
      rw [hp] at h
      simp only [if_true] at h
      have hk : k = 0 := by
        have := Option.some.inj h
        omega
      subst hk
      simpa using hp
    | false =>
      rw [hp] at h
      simp only [Bool.false_eq_true, if_false] at h
      cases hi : indexOfList t pat with
      | none => rw [hi] at h; cases h
      | some j =>
        rw [hi] at h
        have hk : k = j + 1 := by
          have := Option.some.inj h
          omega
        subst hk
        simpa using ih j hi

theorem indexOfList_none_prefix (pat : List Char) :
    ∀ (l : List Char), indexOfList l pat = none →
      ∀ j, pat.isPrefixOf (l.drop j) = false := by
  intro l
  induction l with
  | nil =>
    intro h j
    unfold indexOfList at h
    cases hp : pat.isPrefixOf ([] : List Char) with
    | true => rw [hp] at h; simp at h
    | false => simpa using hp
  | cons c t ih =>
    intro h j
    unfold indexOfList at h
    cases hp : pat.isPrefixOf (c :: t) with
    | true => rw [hp] at h; simp at h
    | false =>
      rw [hp] at h
      simp only [Bool.false_eq_true, if_false] at h
      cases hi : indexOfList t pat with
      | some j' => rw [hi] at h; cases h
      | none =>
        cases j with
        | zero => simpa using hp
        | succ j' => simpa using ih hi j'

theorem isPrefixOf_take_iff (pat X : List Char) (m : Nat) :
    pat.isPrefixOf (X.take m) = true ↔ pat.isPrefixOf X = true ∧ pat.length ≤ m := by
  simp only [List.isPrefixOf_iff_prefix]
  exact List.prefix_take_iff

theorem occursBefore_slice_iff (content back : List Char) (si i k : Nat) (hb : back ≠ []) :
    back.isPrefixOf ((sliceAt content i si).drop k) = true ↔
      occursBefore content back si (i + k) := by
  unfold sliceAt occursBefore
  rw [List.drop_take, List.drop_drop, isPrefixOf_take_iff]
  have hlen : 1 ≤ back.length := List.length_pos.mpr hb
  constructor
  · rintro ⟨h1, h2⟩
    exact ⟨h1, by omega⟩
  · rintro ⟨h1, h2⟩
    exact ⟨h1, by omega⟩

theorem scanBackwardAux_spec (content back : List Char) (si : Nat) (hb : back ≠ []) :
    ∀ i, (∀ q, occursBefore content back si q → q ≤ i) →
      (∃ p, occursBefore content back si p ∧ scanBackwardAux content back si i = p ∧
          ∀ q, occursBefore content back si q → q ≤ p)
      ∨ ((∀ q, ¬ occursBefore content back si q) ∧ scanBackwardAux content back si i = si) := by
  intro i
  induction i with
  | zero =>
    intro hbound
    cases hidx : indexOfList (sliceAt content 0 si) back with
    | some k =>
      left
      have hpre := indexOfList_some_prefix back _ k hidx
      have hocc : occursBefore content back si (0 + k) :=
        (occursBefore_slice_iff content back si 0 k hb).mp hpre
      have hk0 : k = 0 := by
        have := hbound (0 + k) hocc
        omega
      subst hk0
      refine ⟨0, by simpa using hocc, ?_, hbound⟩
      simp [scanBackwardAux, hidx]
    | none =>
      right
      refine ⟨?_, by simp [scanBackwardAux, hidx]⟩
      intro q hq
      have hpre : back.isPrefixOf ((sliceAt content 0 si).drop q) = true :=
        (occursBefore_slice_iff content back si 0 q hb).mpr (by simpa using hq)
      have hnone := indexOfList_none_prefix back _ hidx q
      rw [hnone] at hpre
      cases hpre
  | succ i ih =>
    intro hbound
    cases hidx : indexOfList (sliceAt content (i + 1) si) back with
    | some k =>
      left
      have hpre := indexOfList_some_prefix back _ k hidx
      have hocc : occursBefore content back si (i + 1 + k) :=
        (occursBefore_slice_iff content back si (i + 1) k hb).mp hpre
      have hk0 : k = 0 := by
        have := hbound _ hocc
        omega
      subst hk0
      refine ⟨i + 1, by simpa using hocc, ?_, hbound⟩
      simp [scanBackwardAux, hidx]
    | none =>
      have hbound' : ∀ q, occursBefore content back si q → q ≤ i := by
        intro q hq
        have hle := hbound q hq
        rcases Nat.lt_or_ge q (i + 1) with hlt | hge
        · omega
        · have hq1 : q = i + 1 := by omega
          subst hq1
          have hpre : back.isPrefixOf ((sliceAt content (i + 1) si).drop 0) = true :=
            (occursBefore_slice_iff content back si (i + 1) 0 hb).mpr (by simpa using hq)
          have hnone := indexOfList_none_prefix back _ hidx 0
          rw [hnone] at hpre
          cases hpre
      have hstep : scanBackwardAux content back si (i + 1) = scanBackwardAux content back si i := by
        simp [scanBackwardAux, hidx]
      rw [hstep]
      exact ih hbound'

/-- C5: for content containing the anchor at `si`, the backward scan's
start boundary is the start of the rightmost occurrence of the backward
delimiter lying wholly before the anchor, and defaults to the anchor's own
position when there is no such occurrence. -/
theorem backward_scan_rightmost (content anchor back : List Char) (si : Nat)
    (hanchor : indexOfList content anchor = some si) (hb : back ≠ []) :
    (∃ p, occursBefore content back si p
        ∧ backwardScanStart content back si = p
        ∧ ∀ q, occursBefore content back si q → q ≤ p)
    ∨ ((∀ q, ¬ occursBefore content back si q)
        ∧ backwardScanStart content back si = si) := by
  have hlen : 1 ≤ back.length := List.length_pos.mpr hb
  cases si with
  | zero =>
    right
    refine ⟨?_, rfl⟩
    intro q hq
    have := hq.2
    omega
  | succ s =>
    have hbound : ∀ q, occursBefore content back (s + 1) q → q ≤ s := by
      intro q hq
      have := hq.2
      omega
    exact scanBackwardAux_spec content back (s + 1) hb s hbound

theorem backward_scan_rightmost_witness :
    (∃ p, occursBefore exC5 exBackC5 1 p
        ∧ backwardScanStart exC5 exBackC5 1 = p
        ∧ ∀ q, occursBefore exC5 exBackC5 1 q → q ≤ p)
    ∨ ((∀ q, ¬ occursBefore exC5 exBackC5 1 q)
        ∧ backwardScanStart exC5 exBackC5 1 = 1) :=
  backward_scan_rightmost exC5 exAnchorC3 exBackC5 1 (by decide) (by decide)

/-! ### Range bounds -/

theorem indexOfList_le_length (pat : List Char) :
    ∀ (l : List Char) (k : Nat), indexOfList l pat = some k → k ≤ l.length := by
  intro l
  induction l with
  | nil =>
    intro k h
    unfold indexOfList at h
    cases hp : pat.isPrefixOf ([] : List Char) with
    | true =>
      rw [hp] at h
      simp only [if_true] at h
      have := Option.some.inj h
      omega
    | false => rw [hp] at h; simp at h
  | cons c t ih =>
    intro k h
    unfold indexOfList at h
    cases hp : pat.isPrefixOf (c :: t) with
    | true =>
      rw [hp] at h
      simp only [if_true] at h
      have := Option.some.inj h
      simp only [List.length_cons]
      omega
    | false =>
      rw [hp] at h
      simp only [Bool.false_eq_true, if_false] at h
      cases hi : indexOfList t pat with
      | none => rw [hi] at h; cases h
      | some j =>
        rw [hi] at h
        have := Option.some.inj h
        have hj := ih j hi
        simp only [List.length_cons]
        omega

theorem indexOfList_some_le (pat l : List Char) (k : Nat)
    (h : indexOfList l pat = some k) : k + pat.length ≤ l.length := by
  have hpre := indexOfList_some_prefix pat l k h
  have hlen := (List.isPrefixOf_iff_prefix.mp hpre).length_le
  simp only [List.length_drop] at hlen
  have hk := indexOfList_le_length pat l k h
  omega

theorem scanBackwardAux_le (content back : List Char) (si : Nat) :
    ∀ i, i ≤ si → scanBackwardAux content back si i ≤ si := by
  intro i
  induction i with
  | zero =>
    intro hle
    cases hidx : indexOfList (sliceAt content 0 si) back with
    | some k =>
      have hk := indexOfList_le_length back _ k hidx
      have hslice : (sliceAt content 0 si).length ≤ si := by
        unfold sliceAt
        simp only [List.length_take]
        omega
      simp only [scanBackwardAux, hidx]
      omega
    | none => simp [scanBackwardAux, hidx]
  | succ i ih =>
    intro hle
    cases hidx : indexOfList (sliceAt content (i + 1) si) back with
    | some k =>
      have hk := indexOfList_le_length back _ k hidx
      have hslice : (sliceAt content (i + 1) si).length ≤ si - (i + 1) := by
        unfold sliceAt
        simp only [List.length_take]
        omega
      simp only [scanBackwardAux, hidx]
      omega
    | none =>
      simp only [scanBackwardAux, hidx]
      exact ih (by omega)

theorem backwardScanStart_le (content back : List Char) (si : Nat) :
    backwardScanStart content back si ≤ si := by
  cases si with
  | zero => exact Nat.le_refl 0
  | succ s => exact scanBackwardAux_le content back (s + 1) s (by omega)

theorem scanForwardAux_bounds (forward : List Char) (d : Nat) (mb : Bool) :
    ∀ (l : List Char) (i : Nat) (bc : Int) (fb : Bool),
      scanForwardAux forward d mb l i bc fb = d
      ∨ (i ≤ scanForwardAux forward d mb l i bc fb
          ∧ scanForwardAux forward d mb l i bc fb ≤ i + l.length) := by
  intro l
  induction l with
  | nil => intro i bc fb; left; rfl
  | cons c rest ih =>
    intro i bc fb
    have step : ∀ (bc' : Int) (fb' : Bool),
        scanForwardAux forward d mb rest (i + 1) bc' fb' = d
        ∨ (i ≤ scanForwardAux forward d mb rest (i + 1) bc' fb'
            ∧ scanForwardAux forward d mb rest (i + 1) bc' fb' ≤ i + (c :: rest).length) := by
      intro bc' fb'
      rcases ih (i + 1) bc' fb' with hd | ⟨h1, h2⟩
      · exact Or.inl hd
      · refine Or.inr ⟨by omega, ?_⟩
        simp only [List.length_cons]
        omega
    cases mb with
    | true =>
      simp only [scanForwardAux, if_true]
      split_ifs
      all_goals
        first
          | exact step _ _
          | (refine Or.inr ⟨by omega, ?_⟩; simp only [List.length_cons]; omega)
    | false =>
      simp only [scanForwardAux, Bool.false_eq_true, if_false]
      split_ifs with h1
      · have hp : forward.isPrefixOf (c :: rest) = true := by
          rw [Bool.and_eq_true] at h1
          exact h1.2
        have hlen : forward.length ≤ rest.length + 1 := by
          have hpre := List.isPrefixOf_iff_prefix.mp hp
          simpa using hpre.length_le
        refine Or.inr ⟨Nat.le_add_right i forward.length, ?_⟩
        simp only [List.length_cons]
        omega
      · exact step _ _

/-- C4 amended: the computed range always satisfies
`0 <= start <= end <= len(content)` and the start never exceeds the
anchor's position; but the range need not contain the anchor occurrence
(see the counterexample), because the forward scan runs from the start
boundary and may stop before the anchor's end. -/
theorem scanRange_bounds (content anchor back forward : List Char) (mb : Bool)
    (si s e : Nat) (hanchor : indexOfList content anchor = some si)
    (hrange : scanRange content anchor back forward mb = some (s, e)) :
    s ≤ si ∧ s ≤ e ∧ e ≤ content.length := by
  unfold scanRange at hrange
  rw [hanchor] at hrange
  simp only [Option.some.injEq] at hrange
  have hs : backwardScanStart content back si = s := congrArg Prod.fst hrange
  have he : forwardScanEnd content forward (si + anchor.length) mb
      (backwardScanStart content back si) = e := congrArg Prod.snd hrange
  rw [hs] at he
  have hssi : s ≤ si := hs ▸ backwardScanStart_le content back si
  have hA : si + anchor.length ≤ content.length := indexOfList_some_le anchor content si hanchor
  have hsl : s ≤ content.length := by omega
  refine ⟨hssi, ?_, ?_⟩ <;>
    · unfold forwardScanEnd at he
      rcases scanForwardAux_bounds forward (si + anchor.length) mb (content.drop s) s 0 false
        with hd | ⟨h1, h2⟩ <;>
        simp only [List.length_drop] at * <;> omega

theorem scanRange_bounds_witness :
    indexOfList exContentC3 exAnchorC3 = some 3
    ∧ scanRange exContentC3 exAnchorC3 exBackC3 litSemi false = some (0, 2)
    ∧ ((0 : Nat) ≤ 3 ∧ (0 : Nat) ≤ 2 ∧ 2 ≤ exContentC3.length) :=
  ⟨by decide, by decide,
    scanRange_bounds exContentC3 exAnchorC3 exBackC3 litSemi false 3 0 2
      (by decide) (by decide)⟩

/-- C3 amended: in non-brace mode the forward scan starts at the start
boundary computed by the backward scan (not at the anchor): the end
boundary is just past the first occurrence of the forward delimiter at or
after that start boundary, and defaults to just past the anchor when there
is no such occurrence. -/
theorem forward_scan_from_start (content anchor back forward : List Char) (si : Nat)
    (hanchor : indexOfList content anchor = some si) (hf : forward ≠ []) :
    forwardScanEnd content forward (si + anchor.length) false
        (backwardScanStart content back si) =
      match indexOfList (content.drop (backwardScanStart content back si)) forward with
      | some j => backwardScanStart content back si + j + forward.length
      | none => si + anchor.length := by
  unfold forwardScanEnd
  exact scanForwardAux_nonbrace forward hf _ _ _ _ _

theorem forward_scan_from_start_witness :
    indexOfList exContentC3 exAnchorC3 = some 3
    ∧ forwardScanEnd exContentC3 litSemi (3 + exAnchorC3.length) false
          (backwardScanStart exContentC3 exBackC3 3) =
        match indexOfList (exContentC3.drop (backwardScanStart exContentC3 exBackC3 3))
            litSemi with
        | some j => backwardScanStart exContentC3 exBackC3 3 + j + litSemi.length
        | none => 3 + exAnchorC3.length :=
  ⟨by decide,
    forward_scan_from_start exContentC3 exAnchorC3 exBackC3 litSemi 3 (by decide) (by decide)⟩

/-- C3 counterexample: in `exContentC3` the anchor sits at index 3 and the
forward delimiter `;` never occurs at or after it, so the claimed end
boundary is 6 (just past the anchor); but the code scans forward from the
backward-scan start 0, finds the `;` at index 1, and returns end boundary
2. -/
theorem forward_scan_start_counterexample :
    indexOfList exContentC3 exAnchorC3 = some 3
    ∧ scanRange exContentC3 exAnchorC3 exBackC3 litSemi false = some (0, 2)
    ∧ claimForwardEnd exContentC3 litSemi 3 exAnchorC3.length = 6
    ∧ (2 : Nat) ≠ 6 := by decide

/-- C4 counterexample: on `exContentC3` the computed range is `[0, 2)`
while the anchor occupies `[3, 6)`, so the range does not contain the
anchor occurrence. -/
theorem range_not_containing_anchor :
    indexOfList exContentC3 exAnchorC3 = some 3
    ∧ scanRange exContentC3 exAnchorC3 exBackC3 litSemi false = some (0, 2)
    ∧ ¬(3 + exAnchorC3.length ≤ 2) := by decide

/-! ### Matcher lemmas for the guard idiom -/

theorem litIfOpen_eq : litIfOpen = ['i', 'f', '('] := rfl

theorem litOpen_eq : litOpen = ['('] := rfl

theorem litCloseSemi_eq : litCloseSemi = [')', ';'] := rfl

theorem litOneParenSemi_eq : litOneParenSemi = ['1', ')', ';'] := rfl

theorem litGuardTailOpen_cons : litGuardTailOpen = '(' :: litGuardTailOpenRest := by decide

theorem litGuardTailOpenRest_cons : litGuardTailOpenRest = ')' :: litParenProcExit := by decide

theorem litProcExitOpen_cons : litProcExitOpen = 'p' :: litProcExitOpenRest := by decide

theorem litGuardTail1_split : litGuardTail1 = litGuardTailOpen ++ litOneParenSemi := by decide

theorem litGuardTailOpen_split : litGuardTailOpen = litParens3 ++ litProcExitOpen := by decide

theorem litProcessExit1_split : litProcessExit1 = litProcExitOpen ++ litOneParenSemi := by
  decide

theorem char_isDigit_ne_i (c : Char) (h : c.isDigit = true) : c ≠ 'i' := by
  intro hc
  subst hc
  exact absurd h (by decide)

theorem char_isDigit_ne_paren (c : Char) (h : c.isDigit = true) : c ≠ ')' := by
  intro hc
  subst hc
  exact absurd h (by decide)

theorem isIdentChar_ne_open (c : Char) (h : isIdentChar c = true) : c ≠ '(' := by
  intro hc
  subst hc
  exact absurd h (by decide)

theorem isIdentChar_not_space (c : Char) (h : isIdentChar c = true) : isJsSpace c = false := by
  cases hs : isJsSpace c with
  | false => rfl
  | true =>
    exfalso
    have hmem := hs
    simp only [isJsSpace, Bool.or_eq_true, beq_iff_eq] at hmem
    rcases hmem with ((((rfl | rfl) | rfl) | rfl) | rfl) | rfl <;> exact absurd h (by decide)

theorem suffix_append_cases {t A B : List Char} (h : t <:+ A ++ B) :
    t <:+ B ∨ ∃ s, s <:+ A ∧ s ≠ [] ∧ t = s ++ B := by
  induction A with
  | nil => left; simpa using h
  | cons a A' ih =>
    rw [List.cons_append, List.suffix_cons_iff] at h
    rcases h with h | h
    · right
      exact ⟨a :: A', List.suffix_refl _, by simp, by simpa using h⟩
    · rcases ih h with h1 | ⟨s, hs, hne, rfl⟩
      · left; exact h1
      · right; exact ⟨s, hs.trans (List.suffix_cons a A'), hne, rfl⟩

theorem takeWhile_append_eq (p : Char → Bool) :
    ∀ (X R : List Char), (∀ c ∈ X, p c = true) →
      (∀ y ys, R = y :: ys → p y = false) →
      (X ++ R).takeWhile p = X ∧ (X ++ R).dropWhile p = R := by
  intro X
  induction X with
  | nil =>
    intro R _ hR
    cases R with
    | nil => exact ⟨rfl, rfl⟩
    | cons y ys =>
      have hy := hR y ys rfl
      exact ⟨by simp [List.takeWhile_cons, hy], by simp [List.dropWhile_cons, hy]⟩
  | cons x X' ih =>
    intro R hX hR
    have hx : p x = true := hX x (List.mem_cons_self x X')
    have hX' : ∀ c ∈ X', p c = true := fun c hc => hX c (List.mem_cons_of_mem x hc)
    obtain ⟨h1, h2⟩ := ih R hX' hR
    exact ⟨by simp [List.takeWhile_cons, hx, h1], by simp [List.dropWhile_cons, hx, h2]⟩

theorem isPrefixOf_self_append (A r : List Char) : A.isPrefixOf (A ++ r) = true := by
  rw [List.isPrefixOf_iff_prefix]
  exact List.prefix_append A r

theorem isPrefixOf_append_both (A : List Char) :
    ∀ (u v : List Char), (A ++ u).isPrefixOf (A ++ v) = u.isPrefixOf v := by
  induction A with
  | nil => intro u v; rfl
  | cons a A' ih =>
    intro u v
    show ((a :: (A' ++ u)).isPrefixOf (a :: (A' ++ v))) = _
    simp [List.isPrefixOf, ih u v]

theorem dropLit_self_append (A r : List Char) : dropLit A (A ++ r) = some r := by
  unfold dropLit
  rw [isPrefixOf_self_append]
  simp [List.drop_left]

theorem tryP1_eq_none_of_not_if (l : List Char) (h : litIfOpen.isPrefixOf l = false) :
    tryP1 l = none := by
  simp [tryP1, dropLit, h]

theorem tryP2_eq_none_of_not_if (l : List Char) (h : litIf.isPrefixOf l = false) :
    tryP2 l = none := by
  simp [tryP2, dropLit, h]

theorem tryP3_eq_none_of_not_if (l : List Char) (h : litIfOpen.isPrefixOf l = false) :
    tryP3 l = none := by
  simp [tryP3, dropLit, h]

theorem blocksIfOpen_spec (m : List Char) (h : blocksIfOpen m = true) (r : List Char) :
    litIfOpen.isPrefixOf (m ++ r) = false := by
  rcases m with _ | ⟨a, _ | ⟨b, _ | ⟨c, m'⟩⟩⟩
  · simp [blocksIfOpen] at h
  · simp only [blocksIfOpen, Bool.not_eq_true'] at h
    rw [Bool.eq_false_iff]
    intro hcontra
    rw [litIfOpen_eq, List.isPrefixOf_iff_prefix] at hcontra
    have h1 := (List.cons_prefix_cons.mp hcontra).1
    rw [← h1] at h
    simp at h
  · simp only [blocksIfOpen, Bool.not_eq_true'] at h
    rw [Bool.eq_false_iff]
    intro hcontra
    rw [litIfOpen_eq, List.isPrefixOf_iff_prefix] at hcontra
    have h1 := List.cons_prefix_cons.mp hcontra
    have h2 := List.cons_prefix_cons.mp h1.2
    rw [← h1.1, ← h2.1] at h
    simp at h
  · simp only [blocksIfOpen, Bool.not_eq_true'] at h
    rw [Bool.eq_false_iff]
    intro hcontra
    rw [litIfOpen_eq, List.isPrefixOf_iff_prefix] at hcontra
    have h1 := List.cons_prefix_cons.mp hcontra
    have h2 := List.cons_prefix_cons.mp h1.2
    have h3 := List.cons_prefix_cons.mp h2.2
    rw [← h1.1, ← h2.1, ← h3.1] at h
    simp at h

theorem blocksIf_spec (m : List Char) (h : blocksIf m = true) (r : List Char) :
    litIf.isPrefixOf (m ++ r) = false := by
  rcases m with _ | ⟨a, _ | ⟨b, m'⟩⟩
  · simp [blocksIf] at h
  · simp only [blocksIf, Bool.not_eq_true'] at h
    rw [Bool.eq_false_iff]
    intro hcontra
    rw [show litIf = ['i', 'f'] from rfl, List.isPrefixOf_iff_prefix] at hcontra
    have h1 := (List.cons_prefix_cons.mp hcontra).1
    rw [← h1] at h
    simp at h
  · simp only [blocksIf, Bool.not_eq_true'] at h
    rw [Bool.eq_false_iff]
    intro hcontra
    rw [show litIf = ['i', 'f'] from rfl, List.isPrefixOf_iff_prefix] at hcontra
    have h1 := List.cons_prefix_cons.mp hcontra
    have h2 := List.cons_prefix_cons.mp h1.2
    rw [← h1.1, ← h2.1] at h
    simp at h

theorem tryP1_blocked (m r : List Char) (h : blocksIfOpen m = true) : tryP1 (m ++ r) = none :=
  tryP1_eq_none_of_not_if _ (blocksIfOpen_spec m h r)

theorem tryP2_blocked (m r : List Char) (h : blocksIf m = true) : tryP2 (m ++ r) = none :=
  tryP2_eq_none_of_not_if _ (blocksIf_spec m h r)

theorem tryP3_blocked (m r : List Char) (h : blocksIfOpen m = true) : tryP3 (m ++ r) = none :=
  tryP3_eq_none_of_not_if _ (blocksIfOpen_spec m h r)

theorem tryP1_head_ne (d : Char) (l : List Char) (h : d ≠ 'i') : tryP1 (d :: l) = none :=
  tryP1_blocked [d] l (by simp [blocksIfOpen, h])

theorem tryP2_head_ne (d : Char) (l : List Char) (h : d ≠ 'i') : tryP2 (d :: l) = none :=
  tryP2_blocked [d] l (by simp [blocksIf, h])

theorem tryP3_head_ne (d : Char) (l : List Char) (h : d ≠ 'i') : tryP3 (d :: l) = none :=
  tryP3_blocked [d] l (by simp [blocksIfOpen, h])

theorem tryP1_of_blocksIfOpen (t : List Char) (h : blocksIfOpen t = true) : tryP1 t = none := by
  have := tryP1_blocked t [] h
  simpa using this

theorem tryP2_of_blocksIf (t : List Char) (h : blocksIf t = true) : tryP2 t = none := by
  have := tryP2_blocked t [] h
  simpa using this

theorem guardTail_head_not_ident (N : List Char) :
    ∀ y ys, litGuardTailOpen ++ (N ++ litCloseSemi) = y :: ys → isIdentChar y = false := by
  intro y ys hE
  rw [litGuardTailOpen_cons, List.cons_append] at hE
  injection hE with h1 _
  rw [← h1]
  decide

theorem oneParenSemi_not_prefix (N : List Char) (hNne : N ≠ [])
    (hNd : ∀ c ∈ N, c.isDigit = true) (hN1 : N ≠ listOne) :
    litOneParenSemi.isPrefixOf (N ++ litCloseSemi) = false := by
  obtain ⟨d, N', rfl⟩ : ∃ d N', N = d :: N' := by
    cases N with
    | nil => exact absurd rfl hNne
    | cons d N' => exact ⟨d, N', rfl⟩
  rw [litOneParenSemi_eq]
  by_cases hd : d = '1'
  · subst hd
    cases N' with
    | nil => exact absurd rfl hN1
    | cons e N'' =>
      have he : e.isDigit = true := hNd e (by simp)
      have hep : (')' == e) = false := by
        simp
        exact Ne.symm (char_isDigit_ne_paren e he)
      simp [List.isPrefixOf, hep]
  · have h1 : ('1' == d) = false := by
      simp
      exact Ne.symm hd
    simp [List.isPrefixOf, h1]

theorem tryP1_append_no_ident (W : List Char)
    (hW : ∀ c cs, W = c :: cs → isIdentChar c = false) :
    tryP1 (litIfOpen ++ W) = none := by
  have hd := dropLit_self_append litIfOpen W
  cases W with
  | nil =>
    simp only [List.append_nil]
    decide
  | cons c cs =>
    have hc := hW c cs rfl
    simp [tryP1, hd, List.takeWhile_cons, hc]

theorem tryP3_append_no_ident (W : List Char)
    (hW : ∀ c cs, W = c :: cs → isIdentChar c = false) :
    tryP3 (litIfOpen ++ W) = none := by
  have hd := dropLit_self_append litIfOpen W
  cases W with
  | nil =>
    simp only [List.append_nil]
    decide
  | cons c cs =>
    have hc := hW c cs rfl
    simp [tryP3, hd, List.takeWhile_cons, hc]

theorem tryP2_paren_no_ident (W : List Char)
    (hW : ∀ c cs, W = c :: cs → isIdentChar c = false) :
    tryP2 (litIf ++ ('(' :: W)) = none := by
  have hd : dropLit litIf (litIf ++ ('(' :: W)) = some ('(' :: W) :=
    dropLit_self_append litIf ('(' :: W)
  have hd2 : dropLit litOpen ('(' :: W) = some W := dropLit_self_append litOpen W
  have hsp : isJsSpace '(' = false := by decide
  cases W with
  | nil => simp [tryP2, hd, hd2, List.takeWhile_cons, List.dropWhile_cons, hsp]
  | cons c cs =>
    have hc := hW c cs rfl
    simp [tryP2, hd, hd2, List.takeWhile_cons, List.dropWhile_cons, hsp, hc]

theorem tryP2_third_no_paren (c : Char) (rest : List Char)
    (h1 : isJsSpace c = false) (h2 : ('(' == c) = false) :
    tryP2 ('i' :: 'f' :: c :: rest) = none := by
  have hd : dropLit litIf ('i' :: 'f' :: c :: rest) = some (c :: rest) :=
    dropLit_self_append litIf (c :: rest)
  have hp : litOpen.isPrefixOf (c :: rest) = false := by
    rw [litOpen_eq]
    simp [List.isPrefixOf, h2]
  have hdp : dropLit litOpen (c :: rest) = none := by
    simp [dropLit, hp]
  simp [tryP2, hd, List.takeWhile_cons, List.dropWhile_cons, h1, hdp]

theorem tryP1_guardContent (X N : List Char) (hX : X ≠ [])
    (hXid : ∀ c ∈ X, isIdentChar c = true) (hNne : N ≠ [])
    (hNd : ∀ c ∈ N, c.isDigit = true) (hN1 : N ≠ listOne) :
    tryP1 (litIfOpen ++ (X ++ (litGuardTailOpen ++ (N ++ litCloseSemi)))) = none := by
  have hd0 := dropLit_self_append litIfOpen (X ++ (litGuardTailOpen ++ (N ++ litCloseSemi)))
  obtain ⟨htake, hdrop⟩ := takeWhile_append_eq isIdentChar X
    (litGuardTailOpen ++ (N ++ litCloseSemi)) hXid (guardTail_head_not_ident N)
  have hXlen : X.length ≠ 0 := by
    cases X with
    | nil => exact absurd rfl hX
    | cons a as => simp
  have hdTail : dropLit litGuardTail1 (litGuardTailOpen ++ (N ++ litCloseSemi)) = none := by
    have hpre : litGuardTail1.isPrefixOf (litGuardTailOpen ++ (N ++ litCloseSemi)) = false := by
      rw [litGuardTail1_split, isPrefixOf_append_both]
      exact oneParenSemi_not_prefix N hNne hNd hN1
    simp [dropLit, hpre]
  simp [tryP1, hd0, htake, hdrop, hXlen, hdTail]

theorem tryP2_guardContent (X N : List Char) (hX : X ≠ [])
    (hXid : ∀ c ∈ X, isIdentChar c = true) (hNne : N ≠ [])
    (hNd : ∀ c ∈ N, c.isDigit = true) (hN1 : N ≠ listOne) :
    tryP2 (litIfOpen ++ (X ++ (litGuardTailOpen ++ (N ++ litCloseSemi)))) = none := by
  have hsplit : litIfOpen ++ (X ++ (litGuardTailOpen ++ (N ++ litCloseSemi)))
      = litIf ++ ('(' :: (X ++ (litGuardTailOpen ++ (N ++ litCloseSemi)))) := rfl
  rw [hsplit]
  have hd0 := dropLit_self_append litIf
    ('(' :: (X ++ (litGuardTailOpen ++ (N ++ litCloseSemi))))
  have hspParen : isJsSpace '(' = false := by decide
  have hd1 : dropLit litOpen ('(' :: (X ++ (litGuardTailOpen ++ (N ++ litCloseSemi))))
      = some (X ++ (litGuardTailOpen ++ (N ++ litCloseSemi))) :=
    dropLit_self_append litOpen (X ++ (litGuardTailOpen ++ (N ++ litCloseSemi)))
  obtain ⟨htake, hdrop⟩ := takeWhile_append_eq isIdentChar X
    (litGuardTailOpen ++ (N ++ litCloseSemi)) hXid (guardTail_head_not_ident N)
  have hXlen : X.length ≠ 0 := by
    cases X with
    | nil => exact absurd rfl hX
    | cons a as => simp
  have hd2 : dropLit litParens3 (litGuardTailOpen ++ (N ++ litCloseSemi))
      = some (litProcExitOpen ++ (N ++ litCloseSemi)) := by
    rw [litGuardTailOpen_split, List.append_assoc]
    exact dropLit_self_append litParens3 (litProcExitOpen ++ (N ++ litCloseSemi))
  have hPp : isJsSpace 'p' = false := by decide
  have hws2take : (litProcExitOpen ++ (N ++ litCloseSemi)).takeWhile isJsSpace = [] := by
    rw [litProcExitOpen_cons, List.cons_append]
    simp [List.takeWhile_cons, hPp]
  have hws2drop : (litProcExitOpen ++ (N ++ litCloseSemi)).dropWhile isJsSpace
      = litProcExitOpen ++ (N ++ litCloseSemi) := by
    rw [litProcExitOpen_cons, List.cons_append]
    simp [List.dropWhile_cons, hPp]
  have hd3 : dropLit litProcessExit1 (litProcExitOpen ++ (N ++ litCloseSemi)) = none := by
    have hpre : litProcessExit1.isPrefixOf (litProcExitOpen ++ (N ++ litCloseSemi))
        = false := by
      rw [litProcessExit1_split, isPrefixOf_append_both]
      exact oneParenSemi_not_prefix N hNne hNd hN1
    simp [dropLit, hpre]
  simp [tryP2, hd0, List.takeWhile_cons, List.dropWhile_cons, hspParen, hd1, htake, hdrop,
    hXlen, hd2, hws2take, hws2drop, hd3]

theorem tryP3_guardContent (X N : List Char) (hX : X ≠ [])
    (hXid : ∀ c ∈ X, isIdentChar c = true) (hNne : N ≠ [])
    (hNd : ∀ c ∈ N, c.isDigit = true) :
    tryP3 (litIfOpen ++ (X ++ (litGuardTailOpen ++ (N ++ litCloseSemi))))
      = some (litIfOpen.length + X.length + litGuardTailOpen.length + N.length
          + litCloseSemi.length) := by
  have hd0 := dropLit_self_append litIfOpen (X ++ (litGuardTailOpen ++ (N ++ litCloseSemi)))
  obtain ⟨htake, hdrop⟩ := takeWhile_append_eq isIdentChar X
    (litGuardTailOpen ++ (N ++ litCloseSemi)) hXid (guardTail_head_not_ident N)
  have hXlen : X.length ≠ 0 := by
    cases X with
    | nil => exact absurd rfl hX
    | cons a as => simp
  have hd1 : dropLit litGuardTailOpen (litGuardTailOpen ++ (N ++ litCloseSemi))
      = some (N ++ litCloseSemi) :=
    dropLit_self_append litGuardTailOpen (N ++ litCloseSemi)
  have hCS : ∀ y ys, litCloseSemi = y :: ys → y.isDigit = false := by
    intro y ys hE
    rw [litCloseSemi_eq] at hE
    injection hE with h1 _
    rw [← h1]
    decide
  obtain ⟨htakeN, hdropN⟩ := takeWhile_append_eq Char.isDigit N litCloseSemi hNd hCS
  have hNlen : N.length ≠ 0 := by
    cases N with
    | nil => exact absurd rfl hNne
    | cons a as => simp
  have hd2 : dropLit litCloseSemi litCloseSemi = some [] := by
    have h := dropLit_self_append litCloseSemi []
    simpa using h
  simp [tryP3, hd0, htake, hdrop, hXlen, hd1, htakeN, hdropN, hNlen, hd2]

theorem guard_tail_no_match (N : List Char) (hNd : ∀ c ∈ N, c.isDigit = true) :
    ∀ t, t <:+ litGuardTailOpen ++ (N ++ litCloseSemi) →
      tryP1 t = none ∧ tryP2 t = none ∧ tryP3 t = none := by
  intro t ht
  rcases suffix_append_cases ht with ht1 | ⟨m, hm, hmne, rfl⟩
  · rcases suffix_append_cases ht1 with ht2 | ⟨s, hs, hsne, rfl⟩
    · have hset : ∀ x ∈ litCloseSemi.tails,
          tryP1 x = none ∧ tryP2 x = none ∧ tryP3 x = none := by decide
      exact hset t ((List.mem_tails t litCloseSemi).mpr ht2)
    · obtain ⟨d, s', rfl⟩ : ∃ d s', s = d :: s' := by
        cases s with
        | nil => exact absurd rfl hsne
        | cons d s' => exact ⟨d, s', rfl⟩
      have hd : d.isDigit = true := hNd d (hs.subset (List.mem_cons_self d s'))
      have hdi : d ≠ 'i' := char_isDigit_ne_i d hd
      exact ⟨tryP1_head_ne d _ hdi, tryP2_head_ne d _ hdi, tryP3_head_ne d _ hdi⟩
  · have hd16 : ∀ x ∈ litGuardTailOpen.tails,
        x = [] ∨ (blocksIfOpen x = true ∧ blocksIf x = true) := by decide
    rcases hd16 m ((List.mem_tails m litGuardTailOpen).mpr hm) with h0 | ⟨hb1, hb2⟩
    · exact absurd h0 hmne
    · exact ⟨tryP1_blocked m _ hb1, tryP2_blocked m _ hb2, tryP3_blocked m _ hb1⟩

theorem guard_X_region (N : List Char) (hNd : ∀ c ∈ N, c.isDigit = true) :
    ∀ (s : List Char), (∀ c ∈ s, isIdentChar c = true) →
      tryP1 (s ++ (litGuardTailOpen ++ (N ++ litCloseSemi))) = none
      ∧ tryP2 (s ++ (litGuardTailOpen ++ (N ++ litCloseSemi))) = none := by
  intro s hsid
  have hTcons : litGuardTailOpen ++ (N ++ litCloseSemi)
      = '(' :: (litGuardTailOpenRest ++ (N ++ litCloseSemi)) := by
    rw [litGuardTailOpen_cons, List.cons_append]
  have hWhead : ∀ c cs, litGuardTailOpenRest ++ (N ++ litCloseSemi) = c :: cs →
      isIdentChar c = false := by
    intro c cs hE
    rw [litGuardTailOpenRest_cons, List.cons_append] at hE
    injection hE with h1 _
    rw [← h1]
    decide
  rcases s with _ | ⟨a, _ | ⟨b, _ | ⟨c, s'⟩⟩⟩
  · have := guard_tail_no_match N hNd _ (List.suffix_refl _)
    exact ⟨this.1, this.2.1⟩
  · rw [hTcons]
    constructor
    · apply tryP1_eq_none_of_not_if
      rw [litIfOpen_eq]
      have hf : ('f' == '(') = false := by decide
      simp [List.isPrefixOf, hf]
    · apply tryP2_eq_none_of_not_if
      rw [show litIf = ['i', 'f'] from rfl]
      have hf : ('f' == '(') = false := by decide
      simp [List.isPrefixOf, hf]
  · by_cases hab : a = 'i' ∧ b = 'f'
    · obtain ⟨rfl, rfl⟩ := hab
      rw [hTcons]
      constructor
      · exact tryP1_append_no_ident (litGuardTailOpenRest ++ (N ++ litCloseSemi)) hWhead
      · exact tryP2_paren_no_ident (litGuardTailOpenRest ++ (N ++ litCloseSemi)) hWhead
    · rw [hTcons]
      have hb1 : blocksIfOpen (a :: b :: '(' :: (litGuardTailOpenRest ++ (N ++ litCloseSemi)))
          = true := by
        simp only [blocksIfOpen, Bool.not_eq_true']
        have hparen : ('(' == '(') = true := by decide
        rcases Decidable.not_and_iff_or_not.mp hab with ha | hb
        · have : (a == 'i') = false := by simp [ha]
          simp [this]
        · have : (b == 'f') = false := by simp [hb]
          simp [this]
      have hb2 : blocksIf (a :: b :: '(' :: (litGuardTailOpenRest ++ (N ++ litCloseSemi)))
          = true := by
        simp only [blocksIf, Bool.not_eq_true']
        rcases Decidable.not_and_iff_or_not.mp hab with ha | hb
        · have : (a == 'i') = false := by simp [ha]
          simp [this]
        · have : (b == 'f') = false := by simp [hb]
          simp [this]
      exact ⟨tryP1_of_blocksIfOpen _ hb1, tryP2_of_blocksIf _ hb2⟩
  · have hcid : isIdentChar c = true := hsid c (by simp)
    have hcp : (c == '(') = false := by
      simp
      exact isIdentChar_ne_open c hcid
    constructor
    · apply tryP1_of_blocksIfOpen
      simp only [blocksIfOpen, Bool.not_eq_true']
      simp [hcp]
    · by_cases hab : a = 'i' ∧ b = 'f'
      · obtain ⟨rfl, rfl⟩ := hab
        have hcsp : isJsSpace c = false := isIdentChar_not_space c hcid
        have hpar : ('(' == c) = false := by
          simp
          exact Ne.symm (isIdentChar_ne_open c hcid)
        exact tryP2_third_no_paren c _ hcsp hpar
      · apply tryP2_of_blocksIf
        simp only [blocksIf, Bool.not_eq_true']
        rcases Decidable.not_and_iff_or_not.mp hab with ha | hb
        · have : (a == 'i') = false := by simp [ha]
          simp [this]
        · have : (b == 'f') = false := by simp [hb]
          simp [this]

theorem guardContent_no_P12 (X N : List Char) (hX : X ≠ [])
    (hXid : ∀ c ∈ X, isIdentChar c = true) (hNne : N ≠ [])
    (hNd : ∀ c ∈ N, c.isDigit = true) (hN1 : N ≠ listOne) :
    ∀ t, t <:+ guardContent X N → tryP1 t = none ∧ tryP2 t = none := by
  intro t ht
  have hL : guardContent X N
      = litIfOpen ++ (X ++ (litGuardTailOpen ++ (N ++ litCloseSemi))) := by
    simp [guardContent, List.append_assoc]
  rw [hL] at ht
  rcases suffix_append_cases ht with ht1 | ⟨s', hs', hs'ne, rfl⟩
  · rcases suffix_append_cases ht1 with ht2 | ⟨s, hs, hsne, rfl⟩
    · have := guard_tail_no_match N hNd t ht2
      exact ⟨this.1, this.2.1⟩
    · exact guard_X_region N hNd s (fun c hc => hXid c (hs.subset hc))
  · have hmem : s' ∈ litIfOpen.tails := (List.mem_tails s' litIfOpen).mpr hs'
    have htails : litIfOpen.tails = [litIfOpen, ['f', '('], ['('], []] := by decide
    rw [htails] at hmem
    simp only [List.mem_cons, List.mem_singleton] at hmem
    rcases hmem with rfl | rfl | rfl | hmem
    · exact ⟨tryP1_guardContent X N hX hXid hNne hNd hN1,
        tryP2_guardContent X N hX hXid hNne hNd hN1⟩
    · exact ⟨tryP1_head_ne 'f' _ (by decide), tryP2_head_ne 'f' _ (by decide)⟩
    · exact ⟨tryP1_head_ne '(' _ (by decide), tryP2_head_ne '(' _ (by decide)⟩
    · rcases hmem with rfl | hmem
      · exact absurd rfl hs'ne
      · simp at hmem

theorem guardContent_cons (X N : List Char) :
    guardContent X N
      = 'i' :: ('f' :: ('(' :: (X ++ (litGuardTailOpen ++ (N ++ litCloseSemi))))) := by
  simp [guardContent, litIfOpen, List.append_assoc]

theorem applyGuardPatterns_guardContent (X N : List Char) (hX : X ≠ [])
    (hXid : ∀ c ∈ X, isIdentChar c = true) (hNne : N ≠ [])
    (hNd : ∀ c ∈ N, c.isDigit = true) (hN1 : N ≠ listOne) :
    applyGuardPatterns (guardContent X N) = (exitReplacement, true) := by
  have hall := guardContent_no_P12 X N hX hXid hNne hNd hN1
  have e1 : replaceAll tryP1 exitReplacement (guardContent X N) = guardContent X N :=
    replaceAll_eq_self _ _ _ (fun t ht => (hall t ht).1)
  have e2 : replaceAll tryP2 exitReplacement (guardContent X N) = guardContent X N :=
    replaceAll_eq_self _ _ _ (fun t ht => (hall t ht).2)
  have hLc := guardContent_cons X N
  have hful : tryP3 (guardContent X N)
      = some ((('f' :: ('(' :: (X ++ (litGuardTailOpen ++ (N ++ litCloseSemi)))))).length + 1)
      := by
    rw [hLc]
    have h3 := tryP3_guardContent X N hX hXid hNne hNd
    have hLform : litIfOpen ++ (X ++ (litGuardTailOpen ++ (N ++ litCloseSemi)))
        = 'i' :: ('f' :: ('(' :: (X ++ (litGuardTailOpen ++ (N ++ litCloseSemi))))) := by
      rw [litIfOpen_eq]
      rfl
    rw [hLform] at h3
    rw [h3]
    have c1 : litIfOpen.length = 3 := by decide
    have c2 : litGuardTailOpen.length = 16 := by decide
    have c3 : litCloseSemi.length = 2 := by decide
    simp only [List.length_cons, List.length_append, c1, c2, c3, Option.some.injEq]
    omega
  have e3 : replaceAll tryP3 exitReplacement (guardContent X N) = exitReplacement := by
    unfold replaceAll
    rw [hLc] at hful ⊢
    exact replaceAllAux_full tryP3 exitReplacement _ 'i' _ hful
  have hne3 : ¬(exitReplacement = guardContent X N) := by
    intro hEq
    have h3 := tryP3_guardContent X N hX hXid hNne hNd
    have hL : guardContent X N
        = litIfOpen ++ (X ++ (litGuardTailOpen ++ (N ++ litCloseSemi))) := by
      simp [guardContent, List.append_assoc]
    rw [← hL] at h3
    rw [← hEq] at h3
    have hnone : tryP3 exitReplacement = none := by decide
    rw [hnone] at h3
    cases h3
  unfold applyGuardPatterns guardStep
  simp [e1, e2, e3, hne3]

/-- A corollary for content that is exactly one guard occurrence: the whole
pipeline turns it into the fixed literal with the `patched` flag set. -/
theorem patchPipeline_bare_guard (X N : List Char) (hX : X ≠ [])
    (hXid : ∀ c ∈ X, isIdentChar c = true) (hNne : N ≠ [])
    (hNd : ∀ c ∈ N, c.isDigit = true) (hN1 : N ≠ listOne) :
    patchPipeline (guardContent X N) = (exitReplacement, true) := by
  have hg := applyGuardPatterns_guardContent X N hX hXid hNne hNd hN1
  have ha : indexOfList exitReplacement subscriptionAnchor = none := by decide
  have hd : indexOfList exitReplacement dirPatternLit = none := by decide
  simp [patchPipeline, hg, scanAndReplace, scanRange, ha, hd]

/-! ### First-match behaviour of the global replace -/

theorem replaceAllAux_fuel_invariant (tm : List Char → Option Nat) (repl : List Char) :
    ∀ (f1 : Nat) (l : List Char) (f2 : Nat), l.length ≤ f1 → l.length ≤ f2 →
      replaceAllAux tm repl f1 l = replaceAllAux tm repl f2 l := by
  intro f1
  induction f1 with
  | zero =>
    intro l f2 h1 h2
    have hl : l = [] := by
      cases l with
      | nil => rfl
      | cons c rest => simp at h1
    subst hl
    cases f2 <;> rfl
  | succ f ih =>
    intro l f2 h1 h2
    cases l with
    | nil => cases f2 <;> rfl
    | cons c rest =>
      cases f2 with
      | zero => simp at h2
      | succ f2' =>
        have hr1 : rest.length ≤ f := by
          simp only [List.length_cons] at h1
          omega
        have hr2 : rest.length ≤ f2' := by
          simp only [List.length_cons] at h2
          omega
        simp only [replaceAllAux]
        cases htm : tm (c :: rest) with
        | none =>
          show c :: replaceAllAux tm repl f rest = c :: replaceAllAux tm repl f2' rest
          rw [ih rest f2' hr1 hr2]
        | some n =>
          cases n with
          | zero =>
            show c :: replaceAllAux tm repl f rest = c :: replaceAllAux tm repl f2' rest
            rw [ih rest f2' hr1 hr2]
          | succ n' =>
            have hd1 : (rest.drop n').length ≤ f := by
              simp only [List.length_drop]
              omega
            have hd2 : (rest.drop n').length ≤ f2' := by
              simp only [List.length_drop]
              omega
            show repl ++ replaceAllAux tm repl f (rest.drop n')
                = repl ++ replaceAllAux tm repl f2' (rest.drop n')
            rw [ih (rest.drop n') f2' hd1 hd2]

theorem replaceAllAux_skip (tm : List Char → Option Nat) (repl : List Char) :
    ∀ (P C : List Char) (fuel : Nat),
      (∀ j, j < P.length → tm ((P ++ C).drop j) = none) →
      (P ++ C).length ≤ fuel →
      replaceAllAux tm repl fuel (P ++ C)
        = P ++ replaceAllAux tm repl (fuel - P.length) C := by
  intro P
  induction P with
  | nil => intro C fuel h hlen; simp
  | cons c P' ih =>
    intro C fuel h hlen
    cases fuel with
    | zero =>
      exfalso
      simp only [List.cons_append, List.length_cons] at hlen
      omega
    | succ f =>
      have h0 : tm (c :: (P' ++ C)) = none := by
        have := h 0 (by simp)
        simpa using this
      have hj : ∀ j, j < P'.length → tm ((P' ++ C).drop j) = none := by
        intro j hjp
        have := h (j + 1) (by simp only [List.length_cons]; omega)
        simpa using this
      have hl : (P' ++ C).length ≤ f := by
        simp only [List.cons_append, List.length_cons] at hlen
        omega
      show replaceAllAux tm repl (f + 1) (c :: (P' ++ C)) = _
      simp only [replaceAllAux, h0]
      rw [ih C f hj hl]
      have hfe : f + 1 - (c :: P').length = f - P'.length := by
        simp only [List.length_cons]
        omega
      rw [hfe]
      rfl

theorem replaceAllAux_match_head (tm : List Char → Option Nat) (repl : List Char)
    (fuel : Nat) (c : Char) (G S : List Char)
    (h : tm (c :: (G ++ S)) = some (G.length + 1)) :
    replaceAllAux tm repl (fuel + 1) (c :: (G ++ S))
      = repl ++ replaceAllAux tm repl fuel S := by
  simp only [replaceAllAux, h]
  rw [List.drop_left]

theorem guardTailZ_head_not_ident (Z : List Char) :
    ∀ y ys, litGuardTailOpen ++ Z = y :: ys → isIdentChar y = false := by
  intro y ys hE
  rw [litGuardTailOpen_cons, List.cons_append] at hE
  injection hE with h1 _
  rw [← h1]
  decide

theorem closeSemiZ_head_not_digit (Z : List Char) :
    ∀ y ys, litCloseSemi ++ Z = y :: ys → y.isDigit = false := by
  intro y ys hE
  rw [litCloseSemi_eq, List.cons_append] at hE
  injection hE with h1 _
  rw [← h1]
  decide

/-- The exit-code-insensitive guard regex matches a guard occurrence at the
head of the remaining content regardless of what follows it, consuming
exactly the guard's characters. -/
theorem tryP3_guard_with_suffix (X N S : List Char) (hX : X ≠ [])
    (hXid : ∀ c ∈ X, isIdentChar c = true) (hNne : N ≠ [])
    (hNd : ∀ c ∈ N, c.isDigit = true) :
    tryP3 (guardContent X N ++ S) = some ((guardContent X N).length) := by
  have hform : guardContent X N ++ S
      = litIfOpen ++ (X ++ (litGuardTailOpen ++ (N ++ (litCloseSemi ++ S)))) := by
    simp [guardContent, List.append_assoc]
  rw [hform]
  have hd0 := dropLit_self_append litIfOpen
    (X ++ (litGuardTailOpen ++ (N ++ (litCloseSemi ++ S))))
  obtain ⟨htake, hdrop⟩ := takeWhile_append_eq isIdentChar X
    (litGuardTailOpen ++ (N ++ (litCloseSemi ++ S))) hXid
    (guardTailZ_head_not_ident (N ++ (litCloseSemi ++ S)))
  have hXlen : X.length ≠ 0 := by
    cases X with
    | nil => exact absurd rfl hX
    | cons a as => simp
  have hd1 : dropLit litGuardTailOpen (litGuardTailOpen ++ (N ++ (litCloseSemi ++ S)))
      = some (N ++ (litCloseSemi ++ S)) :=
    dropLit_self_append litGuardTailOpen (N ++ (litCloseSemi ++ S))
  obtain ⟨htakeN, hdropN⟩ := takeWhile_append_eq Char.isDigit N (litCloseSemi ++ S) hNd
    (closeSemiZ_head_not_digit S)
  have hNlen : N.length ≠ 0 := by
    cases N with
    | nil => exact absurd rfl hNne
    | cons a as => simp
  have hd2 : dropLit litCloseSemi (litCloseSemi ++ S) = some S :=
    dropLit_self_append litCloseSemi S
  have hlenG : (guardContent X N).length
      = litIfOpen.length + X.length + litGuardTailOpen.length + N.length
        + litCloseSemi.length := by
    simp [guardContent, List.length_append]
    omega
  rw [hlenG]
  simp [tryP3, hd0, htake, hdrop, hXlen, hd1, htakeN, hdropN, hNlen, hd2]

/-- C10 counterexample: `cexC10` contains the guard `if(A())process.exit(2);`
at position 7 (with exit code 2, a digit sequence other than 1), yet the
pipeline's output contains no occurrence of `process.exit(1)` at all: the
subscription-check rule deletes the span from the `return` at position 0
through the semicolon ending the replaced guard, excising the replacement. -/
theorem exit_code_position_counterexample :
    cexC10 = litReturnSp ++ (guardContent exA exTwo ++ subscriptionAnchor)
    ∧ indexOfList cexC10 (guardContent exA exTwo) = some 7
    ∧ exTwo ≠ listOne
    ∧ indexOfList (patchPipeline cexC10).1 litProcessExitOne = none := by decide

/-- C10 amended: every match of the exit-code-insensitive guard regex is
replaced by the single fixed literal `if(false)process.exit(1);` regardless
of the matched exit code: wherever a guard `if(X())process.exit(N);` is
embedded as the rule's leftmost match, the rule's global replace keeps the
prefix, emits the fixed literal in place of the guard, and continues with
the rest — an output that does not depend on `N`, so the original exit
status code is not preserved in the replacement.  The final patched output,
however, need not contain `process.exit(1)` at that position, because a
later rule (the subscription-check range rewrite) can delete the replaced
region (see the counterexample). -/
theorem guard_regex_replacement_fixed (P X N S : List Char) (hX : X ≠ [])
    (hXid : ∀ c ∈ X, isIdentChar c = true) (hNne : N ≠ [])
    (hNd : ∀ c ∈ N, c.isDigit = true)
    (hfirst : ∀ j, j < P.length →
      tryP3 ((P ++ (guardContent X N ++ S)).drop j) = none) :
    replaceAll tryP3 exitReplacement (P ++ (guardContent X N ++ S))
      = P ++ (exitReplacement ++ replaceAll tryP3 exitReplacement S) := by
  have hm : tryP3 (guardContent X N ++ S) = some ((guardContent X N).length) :=
    tryP3_guard_with_suffix X N S hX hXid hNne hNd
  unfold replaceAll
  rw [replaceAllAux_skip tryP3 exitReplacement P (guardContent X N ++ S) _ hfirst
    (Nat.le_refl _)]
  congr 1
  have hflen : (P ++ (guardContent X N ++ S)).length - P.length
      = (guardContent X N ++ S).length := by
    simp only [List.length_append]
    omega
  rw [hflen]
  have hGc : guardContent X N ++ S
      = 'i' :: (('f' :: ('(' :: (X ++ (litGuardTailOpen ++ (N ++ litCloseSemi))))) ++ S) := by
    rw [guardContent_cons]
    rfl
  have hlenG : (guardContent X N).length
      = ('f' :: ('(' :: (X ++ (litGuardTailOpen ++ (N ++ litCloseSemi))))).length + 1 := by
    rw [guardContent_cons]
    rfl
  rw [hlenG] at hm
  rw [hGc] at hm ⊢
  have hfuel : ('i' :: (('f' :: ('(' :: (X ++ (litGuardTailOpen ++ (N ++ litCloseSemi))))) ++ S)).length
      = (('f' :: ('(' :: (X ++ (litGuardTailOpen ++ (N ++ litCloseSemi))))) ++ S).length + 1 :=
    rfl
  rw [hfuel]
  rw [replaceAllAux_match_head tryP3 exitReplacement _ 'i' _ S hm]
  congr 1
  apply replaceAllAux_fuel_invariant
  · simp only [List.length_append]
    omega
  · exact Nat.le_refl _

theorem guard_regex_replacement_fixed_witness :
    (exIdent ≠ [] ∧ (∀ c ∈ exIdent, isIdentChar c = true) ∧ exDigits ≠ []
      ∧ (∀ c ∈ exDigits, c.isDigit = true)
      ∧ (∀ j, j < litReturnSp.length →
          tryP3 ((litReturnSp ++ (guardContent exIdent exDigits ++ exPlain)).drop j) = none))
    ∧ replaceAll tryP3 exitReplacement (litReturnSp ++ (guardContent exIdent exDigits ++ exPlain))
        = litReturnSp ++ (exitReplacement ++ replaceAll tryP3 exitReplacement exPlain) :=
  ⟨⟨by decide, by decide, by decide, by decide, by decide⟩,
    guard_regex_replacement_fixed litReturnSp exIdent exDigits exPlain (by decide)
      (by decide) (by decide) (by decide) (by decide)⟩

end CcAntidebug
